import Mathlib

/-!
Verification of a 3x3 board-exploration program (Rust, `src/main.rs`).

The program packs a 3x3 board into a 64-bit word (4 bits per cell), runs a
depth-bounded DFS over placement/merge successors, accumulates a base-10
fingerprint of every leaf configuration modulo 2^30, and memoizes the
contribution of each (state, turn) subtree under the key `(state << 6) | turn`.

This file gives a shallow embedding of the program: machine words are `Nat`
with explicit masks where the Rust `u64` semantics matters, the `HashMap`
memo is an association list, and the recursion is fuel-indexed (`none`
means the fuel bound was hit; we prove fuel `max_depth - turn + 1` always
suffices, which is the program's termination argument).
-/

/-! ## Definitions (shallow embedding of `src/main.rs`) -/

/-- Source: `const MODULO: u64 = 1 << 30;` -/
def MODULO : Nat := 1 <<< 30

/-- Source: `const MODULO_MASK: u64 = MODULO - 1;` -/
def MODULO_MASK : Nat := MODULO - 1

/-- Source: `const TURN_BITS: u32 = 6;` (bits reserved for the turn in the memo key). -/
def TURN_BITS : Nat := 6

/-- The all-ones 64-bit word; the Rust `!mask` on `u64` is `U64_MAX ^^^ mask`. -/
def U64_MAX : Nat := 2 ^ 64 - 1

/-- Source: `const NEIGHBORS: [&[usize]; 9]`, the 4-neighbourhood of each cell. -/
def NEIGHBORS : Nat → List Nat
  | 0 => [1, 3]
  | 1 => [0, 2, 4]
  | 2 => [1, 5]
  | 3 => [0, 4, 6]
  | 4 => [1, 3, 5, 7]
  | 5 => [2, 4, 8]
  | 6 => [3, 7]
  | 7 => [4, 6, 8]
  | 8 => [5, 7]
  | _ => []

/-- Source: `const COMBOS: [&[Combo]; 5]`, merge subsets indexed by neighbour count. -/
def COMBOS : Nat → List (List Nat)
  | 2 => [[0, 1]]
  | 3 => [[0, 1], [0, 2], [1, 2], [0, 1, 2]]
  | 4 => [[0, 1], [0, 2], [0, 3],
          [1, 2], [1, 3], [2, 3],
          [0, 1, 2], [0, 1, 3], [0, 2, 3], [1, 2, 3],
          [0, 1, 2, 3]]
  | _ => []

/-- Source: `fn get_cell(state, idx) { (state >> (idx << 2)) & 0xF }`. -/
def get_cell (state idx : Nat) : Nat :=
  (state >>> (idx <<< 2)) &&& 0xF

/-- Source: `fn set_cell(state, idx, value)`: clear the cell's nibble, then or in
the low 4 bits of `value`.  The Rust complement `!` is 64-bit. -/
def set_cell (state idx value : Nat) : Nat :=
  (state &&& (U64_MAX ^^^ (0xF <<< (idx <<< 2)))) ||| ((value &&& 0xF) <<< (idx <<< 2))

/-- Source: `fn is_full(state)`: or the four bit-planes and test the low bit of
all nine nibbles against `0x111111111`. -/
def is_full (state : Nat) : Bool :=
  let any_bit_set := state ||| (state >>> 1) ||| (state >>> 2) ||| (state >>> 3)
  (any_bit_set &&& 0x111111111) == 0x111111111

/-- Source: `fn compute_hash(state)`: nine iterations of
`hash = (hash * 10 + (s & 0xF)) & MODULO_MASK; s >>= 4`. -/
def compute_hash (state : Nat) : Nat :=
  ((List.range 9).foldl
    (fun p _ => (p.1 >>> 4, (p.2 * 10 + (p.1 &&& 0xF)) &&& MODULO_MASK))
    (state, 0)).2

/-- The fingerprint as the spec words it: walk the nine cells in ascending
index order and fold `h ← (h * 10 + value) mod 2 ^ 30` starting from `0`. -/
def spec_fingerprint (state : Nat) : Nat :=
  (List.range 9).foldl (fun h i => (h * 10 + get_cell state i) % 2 ^ 30) 0

/-- Row-major packing of a list of cell values, head at index 0. -/
def board_of : List Nat → Nat
  | [] => 0
  | c :: rest => c % 16 + 16 * board_of rest

/-- The `valid_values` / `valid_masks` arrays: for the empty cell `idx`, the
value and nibble mask of each neighbour whose cell is non-zero and not 6,
collected in `NEIGHBORS` order. -/
def valid_list (state idx : Nat) : List (Nat × Nat) :=
  (NEIGHBORS idx).filterMap (fun pos =>
    if get_cell state pos ≠ 0 ∧ get_cell state pos ≠ 6 then
      some (get_cell state pos, 0xF <<< (pos <<< 2))
    else none)

/-- Value sum of a merge combo (the source's early-abort loop compares the
same predicate `sum > 6`, and over `Nat` a prefix sum exceeding 6 forces the
full sum to exceed 6, so the abort is observationally the full sum). -/
def combo_sum (valid : List (Nat × Nat)) (combo : List Nat) : Nat :=
  (combo.map (fun i => (valid.getD i (0, 0)).1)).sum

/-- Source: `combo.iter().fold(0, |acc, &i| acc | valid_masks[i])`. -/
def combo_mask (valid : List (Nat × Nat)) (combo : List Nat) : Nat :=
  combo.foldl (fun acc i => acc ||| (valid.getD i (0, 0)).2) 0

/-- Successor batch generated for one empty cell `idx`: simple placement when
fewer than two mergeable neighbours exist, otherwise the applicable combos in
table order with a placement fallback when none applies. -/
def cell_succs (state idx : Nat) : List Nat :=
  let valid := valid_list state idx
  if valid.length < 2 then [set_cell state idx 1]
  else
    let merged := (COMBOS valid.length).filterMap (fun combo =>
      let sum := combo_sum valid combo
      if sum > 6 then none
      else some ((state &&& (U64_MAX ^^^ combo_mask valid combo)) ||| (sum <<< (idx <<< 2))))
    if merged.isEmpty then [set_cell state idx 1] else merged

/-- Indices of empty cells in ascending order; the source iterates the
`empty_mask` bitset via `trailing_zeros` and clears the lowest set bit, which
visits the set bits in ascending index order. -/
def empty_cells (state : Nat) : List Nat :=
  (List.range 9).filter (fun idx => get_cell state idx == 0)

/-- All successors of `state`, batches concatenated over empty cells. -/
def successors (state : Nat) : List Nat :=
  (empty_cells state).flatMap (cell_succs state)

/-- Model of `fn dfs(state, turn, max_depth, memo, total)`.  The extra `fuel`
argument bounds the recursion depth; `none` means it ran out (we prove fuel
`max_depth - turn + 1` always suffices).  The memo `HashMap` is an
association list, newest entry first; the loop over the successor batch is a
left fold threading `(memo, total)`. -/
def dfs : Nat → Nat → Nat → Nat → List (Nat × Nat) → Nat → Option (List (Nat × Nat) × Nat)
  | 0, _, _, _, _, _ => none
  | fuel + 1, state, turn, max_depth, memo, total =>
    if turn == max_depth || is_full state then
      some (memo, (total + compute_hash state) &&& MODULO_MASK)
    else
      let key := ((state <<< TURN_BITS) % 2 ^ 64) ||| turn
      match memo.lookup key with
      | some v => some (memo, (total + v) &&& MODULO_MASK)
      | none =>
        match (successors state).foldl
            (fun acc s =>
              match acc with
              | none => none
              | some (m, t) => dfs fuel s (turn + 1) max_depth m t)
            (some (memo, total)) with
        | none => none
        | some (memo', total') =>
          some ((key, (total' + MODULO - total) &&& MODULO_MASK) :: memo', total')

/-- The iteration of `dfs` over a successor batch, as its own recursion
(shown equal to the fold inside `dfs` by `dfs_succ`). -/
def dfs_run : Nat → List Nat → Nat → Nat → List (Nat × Nat) → Nat → Option (List (Nat × Nat) × Nat)
  | _, [], _, _, memo, total => some (memo, total)
  | fuel, s :: rest, turn, max_depth, memo, total =>
    match dfs fuel s turn max_depth memo total with
    | none => none
    | some (memo', total') => dfs_run fuel rest turn max_depth memo' total'

/-- `dfs` with the memoization disabled: every lookup misses and nothing is
inserted; only the running total is threaded. -/
def dfs_nm : Nat → Nat → Nat → Nat → Nat → Option Nat
  | 0, _, _, _, _ => none
  | fuel + 1, state, turn, max_depth, total =>
    if turn == max_depth || is_full state then
      some ((total + compute_hash state) &&& MODULO_MASK)
    else
      (successors state).foldl
        (fun acc s =>
          match acc with
          | none => none
          | some t => dfs_nm fuel s (turn + 1) max_depth t)
        (some total)

/-- Iteration of `dfs_nm` over a successor batch. -/
def dfs_nm_run : Nat → List Nat → Nat → Nat → Nat → Option Nat
  | _, [], _, _, total => some total
  | fuel, s :: rest, turn, max_depth, total =>
    match dfs_nm fuel s turn max_depth total with
    | none => none
    | some total' => dfs_nm_run fuel rest turn max_depth total'

/-- The pure contribution of the subtree rooted at `(state, turn)`: the sum,
modulo `2 ^ 30`, of the fingerprints of all leaves below it. -/
def delta_fuel : Nat → Nat → Nat → Nat → Nat
  | 0, _, _, _ => 0
  | fuel + 1, state, turn, max_depth =>
    if turn == max_depth || is_full state then compute_hash state
    else ((successors state).map (fun s => delta_fuel fuel s (turn + 1) max_depth)).sum % 2 ^ 30

/-- The subtree contribution at its canonical fuel. -/
def delta (state turn max_depth : Nat) : Nat :=
  delta_fuel (max_depth + 1 - turn) state turn max_depth

/-- Splitter on whitespace, dropping empty tokens (Rust `split_whitespace`). -/
def split_ws_aux : List Char → List Char → List (List Char)
  | [], acc => if acc.isEmpty then [] else [acc.reverse]
  | c :: rest, acc =>
    if c.isWhitespace then
      if acc.isEmpty then split_ws_aux rest [] else acc.reverse :: split_ws_aux rest []
    else split_ws_aux rest (c :: acc)

/-- Whitespace-separated tokens of a line. -/
def split_ws (l : List Char) : List (List Char) := split_ws_aux l []

/-- Strip whitespace from both ends (Rust `str::trim`). -/
def trim_chars (l : List Char) : List Char :=
  ((l.dropWhile Char.isWhitespace).reverse.dropWhile Char.isWhitespace).reverse

/-- Numeric value of a digit list, most significant first. -/
def digits_val (l : List Char) : Nat :=
  l.foldl (fun acc c => acc * 10 + (c.toNat - 48)) 0

/-- Rust `u64::from_str`: an optional leading `+`, then one or more decimal
digits, and the value must fit in 64 bits; anything else is an error (and
`unwrap` turns it into an abort). -/
def parse_u64 (l : List Char) : Option Nat :=
  let ds := match l with
    | '+' :: rest => rest
    | l => l
  if ds ≠ [] ∧ ds.all Char.isDigit ∧ digits_val ds < 2 ^ 64 then some (digits_val ds)
  else none

/-- One board row: parse every whitespace token of the line (any failure
aborts), then require at least the three values `row[0] row[1] row[2]`
(indexing past the end aborts); extra tokens are parsed but unused. -/
def parse_row (line : List Char) : Option (List Nat) := do
  let vals ← (split_ws line).mapM parse_u64
  if vals.length < 3 then none else some vals

/-- The initial state as `main` builds it: fold `set_cell` over the nine
row-major cells. -/
def encode_rows (rows : List (List Nat)) : Nat :=
  (List.range 3).foldl (fun st i =>
    (List.range 3).foldl (fun st j => set_cell st (i * 3 + j) ((rows.getD i []).getD j 0)) st) 0

/-- The input-consuming half of `fn main`: read the depth line and the three
row lines, aborting (`none`) exactly where an `unwrap` aborts; return the
depth and the packed initial state.  No range check is performed on either
the depth or the cell values. -/
def parse_input (input : List (List Char)) : Option (Nat × Nat) := do
  let dline ← input.get? 0
  let depth ← parse_u64 (trim_chars dline)
  let r0 ← input.get? 1
  let row0 ← parse_row r0
  let r1 ← input.get? 2
  let row1 ← parse_row r1
  let r2 ← input.get? 3
  let row2 ← parse_row r2
  some (depth, encode_rows [row0, row1, row2])

/-- The search exactly as `main` invokes it: turn 0, empty memo, zero total;
the printed value is the final total.  Fuel `depth + 1` is never exhausted
(`dfs_fuel_enough`). -/
def run_search (state depth : Nat) : Option Nat :=
  (dfs (depth + 1) state 0 depth [] 0).map Prod.snd

/-- Model of `fn main` on the list of input lines: `none` is an abort
(nonzero exit), `some n` means the program prints `n` and exits 0. -/
def main_model (input : List (List Char)) : Option Nat := do
  let p ← parse_input input
  run_search p.2 p.1

/-- The spec's eligible set `E`: orthogonal neighbours whose cell value is
non-zero and strictly less than 6 (in `NEIGHBORS` order). -/
def eligible (state idx : Nat) : List Nat :=
  (NEIGHBORS idx).filter (fun pos => decide (get_cell state pos ≠ 0 ∧ get_cell state pos ≠ 6))

/-- Union of the nibble masks of a list of cell positions. -/
def nib_mask (ps : List Nat) : Nat :=
  ps.foldl (fun acc p => acc ||| (0xF <<< (p <<< 2))) 0

/-- The successor batch for one empty cell as the spec words it: if `|E| < 2`
a single simple placement `set_cell S c 1`; otherwise one successor per table
combo whose value-sum is at most 6, clearing every chosen cell and setting
`c` to the sum, with the simple placement as fallback when no combo applies. -/
def spec_cell_succs (state c : Nat) : List Nat :=
  let E := eligible state c
  if E.length < 2 then [set_cell state c 1]
  else
    let merges := (COMBOS E.length).filterMap (fun combo =>
      let chosen := combo.map (fun i => E.getD i 0)
      let sigma := (chosen.map (get_cell state)).sum
      if sigma ≤ 6 then
        some (set_cell (chosen.foldl (fun st p => set_cell st p 0) state) c sigma)
      else none)
    if merges.isEmpty then [set_cell state c 1] else merges

/-- One-or-more-step reachability through the move generator. -/
inductive reachable (s0 : Nat) : Nat → Prop
  | refl : reachable s0 s0
  | step {s s' : Nat} : reachable s0 s → s' ∈ successors s → reachable s0 s'

/-- The chosen positions of a combo. -/
def chosen_of (s idx : Nat) (combo : List Nat) : List Nat :=
  combo.map (fun i => (eligible s idx).getD i 0)

/-- Invariant of the memo map: every entry decodes to a (state, turn) pair
within range whose stored value is exactly that subtree's contribution. -/
def memo_ok (max_depth : Nat) (memo : List (Nat × Nat)) : Prop :=
  ∀ k v, memo.lookup k = some v →
    ∃ s t, s < 2 ^ 36 ∧ t < max_depth ∧
      k = ((s <<< TURN_BITS) % 2 ^ 64) ||| t ∧ v = delta s t max_depth

/-- `u16::trailing_zeros` on a 16-bit word: the index of the lowest set bit
(16 when the word is zero). -/
def trailing_zeros (m : Nat) : Nat :=
  (List.range 16).findIdx (fun i => m.testBit i)

/-- The source loop `while empty_mask != 0 { idx = trailing_zeros;
empty_mask &= empty_mask - 1; ... }`: visit the lowest set bit, clear it,
repeat.  Fuel 9 is enough for a 9-bit mask. -/
def mask_loop : Nat → Nat → List Nat
  | 0, _ => []
  | fuel + 1, m =>
    if m = 0 then [] else trailing_zeros m :: mask_loop fuel (m &&& (m - 1))

/-- Source: `empty_mask |= ((cells[idx] == 0) as u16) << idx` over idx 0..9. -/
def empty_mask (state : Nat) : Nat :=
  (List.range 9).foldl
    (fun acc idx => acc ||| ((if get_cell state idx = 0 then 1 else 0) <<< idx)) 0

/-! ## Theorems -/

/-- Masking with a low-bit mask is reduction modulo a power of two. -/
theorem land_mask (x n : Nat) : x &&& (2 ^ n - 1) = x % 2 ^ n := by
  apply Nat.eq_of_testBit_eq
  intro i
  simp [Nat.testBit_land, Nat.testBit_two_pow_sub_one, Nat.testBit_mod_two_pow, Bool.and_comm]

/-- A number all of whose bits at positions `≥ n` vanish is below `2 ^ n`. -/
theorem lt_pow_of_bits (x n : Nat) (h : ∀ i, n ≤ i → x.testBit i = false) : x < 2 ^ n := by
  have hx : x = x % 2 ^ n := by
    apply Nat.eq_of_testBit_eq
    intro i
    rw [Nat.testBit_mod_two_pow]
    by_cases hi : i < n
    · simp [hi]
    · simp [hi, h i (Nat.le_of_not_lt hi)]
  rw [hx]
  exact Nat.mod_lt _ (Nat.pos_pow_of_pos n (by norm_num))

theorem get_cell_eq_div_mod (s i : Nat) : get_cell s i = s / 16 ^ i % 16 := by
  have h15 : (0xF : Nat) = 2 ^ 4 - 1 := by norm_num
  rw [get_cell, h15, land_mask, Nat.shiftRight_eq_div_pow, Nat.shiftLeft_eq,
    show i * 2 ^ 2 = 4 * i by ring, Nat.pow_mul]
  norm_num

theorem get_cell_lt (s i : Nat) : get_cell s i < 16 := by
  rw [get_cell_eq_div_mod]
  exact Nat.mod_lt _ (by norm_num)

theorem testBit_get_cell (s i k : Nat) :
    (get_cell s i).testBit k = (decide (k < 4) && s.testBit (4 * i + k)) := by
  have h15 : (0xF : Nat) = 2 ^ 4 - 1 := by norm_num
  rw [get_cell, h15, land_mask, Nat.shiftLeft_eq, Nat.testBit_mod_two_pow,
    Nat.testBit_shiftRight]
  congr 1
  congr 1
  ring

/-- Cells at index `≥ 9` of a word below `2 ^ 36` are zero. -/
theorem get_cell_high (s i : Nat) (hs : s < 2 ^ 36) (hi : 9 ≤ i) : get_cell s i = 0 := by
  rw [get_cell_eq_div_mod]
  have : s / 16 ^ i = 0 := by
    apply Nat.div_eq_of_lt
    calc s < 2 ^ 36 := hs
    _ ≤ 16 ^ i := by
        rw [show (16 : Nat) = 2 ^ 4 by norm_num, ← Nat.pow_mul]
        exact Nat.pow_le_pow_right (by norm_num) (by omega)
  simp [this]

/-- Two words below `2 ^ 36` with equal cells are equal. -/
theorem state_ext (s t : Nat) (hs : s < 2 ^ 36) (ht : t < 2 ^ 36)
    (h : ∀ j, j < 9 → get_cell s j = get_cell t j) : s = t := by
  apply Nat.eq_of_testBit_eq
  intro n
  by_cases hn : n < 36
  · have hj : n / 4 < 9 := by omega
    have hk : n % 4 < 4 := Nat.mod_lt _ (by norm_num)
    have hs' := testBit_get_cell s (n / 4) (n % 4)
    have ht' := testBit_get_cell t (n / 4) (n % 4)
    have hrw : 4 * (n / 4) + n % 4 = n := by omega
    rw [hrw] at hs' ht'
    simp [hk] at hs' ht'
    have := h (n / 4) hj
    rw [← hs', ← ht', this]
  · rw [Nat.testBit_lt_two_pow, Nat.testBit_lt_two_pow]
    · exact lt_of_lt_of_le ht (Nat.pow_le_pow_right (by norm_num) (by omega))
    · exact lt_of_lt_of_le hs (Nat.pow_le_pow_right (by norm_num) (by omega))

theorem testBit_of_lt_16 (x k : Nat) (hx : x < 16) (hk : 4 ≤ k) : x.testBit k = false :=
  Nat.testBit_lt_two_pow
    (lt_of_lt_of_le hx (by calc (16:Nat) = 2 ^ 4 := by norm_num
                          _ ≤ 2 ^ k := Nat.pow_le_pow_right (by norm_num) hk))

/-- Bit-level behaviour of `set_cell`: inside the written nibble the bits come
from `value`; elsewhere the original bits survive, truncated to 64 bits. -/
theorem testBit_set_cell (s i v m : Nat) (hi : i < 9) :
    (set_cell s i v).testBit m =
      if 4 * i ≤ m ∧ m < 4 * i + 4 then v.testBit (m - 4 * i)
      else (decide (m < 64) && s.testBit m) := by
  have h15 : (0xF : Nat) = 2 ^ 4 - 1 := by norm_num
  have hU : U64_MAX = 2 ^ 64 - 1 := by norm_num [U64_MAX]
  have hsh : i <<< 2 = 4 * i := by rw [Nat.shiftLeft_eq]; ring
  rw [set_cell, hsh, hU, h15, Nat.testBit_lor, Nat.testBit_land, Nat.testBit_xor,
    Nat.testBit_shiftLeft, Nat.testBit_shiftLeft, Nat.testBit_two_pow_sub_one,
    Nat.testBit_two_pow_sub_one, Nat.testBit_land, Nat.testBit_two_pow_sub_one]
  by_cases hw : 4 * i ≤ m ∧ m < 4 * i + 4
  · have h1 : 4 * i ≤ m := hw.1
    have h2 : m - 4 * i < 4 := by omega
    have h3 : m < 64 := by omega
    simp [h1, h2, h3, hw]
  · rw [if_neg hw]
    by_cases h1 : 4 * i ≤ m
    · have h2 : ¬(m - 4 * i < 4) := by omega
      simp [h1, h2, Bool.and_comm]
    · simp [h1, Bool.and_comm]

/-- `set_cell` writes `value mod 16` at `idx` and leaves the other cells alone. -/
theorem get_cell_set_cell (s i v j : Nat) (hi : i < 9) (hj : j < 9) :
    get_cell (set_cell s i v) j = if j = i then v % 16 else get_cell s j := by
  apply Nat.eq_of_testBit_eq
  intro k
  by_cases hk : k < 4
  · rw [testBit_get_cell, testBit_set_cell s i v _ hi]
    by_cases hji : j = i
    · subst hji
      have hw : 4 * j ≤ 4 * j + k ∧ 4 * j + k < 4 * j + 4 := by omega
      rw [if_pos hw, if_pos rfl]
      have hk' : 4 * j + k - 4 * j = k := by omega
      rw [hk']
      have hv : (v % 16).testBit k = (decide (k < 4) && v.testBit k) := by
        rw [show (16:Nat) = 2 ^ 4 by norm_num, Nat.testBit_mod_two_pow]
      rw [hv]
    · have hw : ¬(4 * i ≤ 4 * j + k ∧ 4 * j + k < 4 * i + 4) := by omega
      rw [if_neg hw, if_neg hji, testBit_get_cell]
      have h64 : 4 * j + k < 64 := by omega
      simp [h64]
  · have hk4 : 4 ≤ k := by omega
    rw [testBit_of_lt_16 _ _ (get_cell_lt _ _) hk4]
    by_cases hji : j = i
    · rw [if_pos hji, Eq.comm]
      exact testBit_of_lt_16 _ _ (Nat.mod_lt _ (by norm_num)) hk4
    · rw [if_neg hji, Eq.comm]
      exact testBit_of_lt_16 _ _ (get_cell_lt _ _) hk4

/-- `set_cell` keeps the word inside the nine-cell range. -/
theorem set_cell_lt (s i v : Nat) (hs : s < 2 ^ 36) (hi : i < 9) : set_cell s i v < 2 ^ 36 := by
  apply lt_pow_of_bits
  intro m hm
  rw [testBit_set_cell s i v m hi]
  have hw : ¬(4 * i ≤ m ∧ m < 4 * i + 4) := by omega
  rw [if_neg hw]
  have hbit : s.testBit m = false :=
    Nat.testBit_lt_two_pow (lt_of_lt_of_le hs (Nat.pow_le_pow_right (by norm_num) hm))
  simp [hbit]

theorem MODULO_eq : MODULO = 2 ^ 30 := by decide

theorem MODULO_MASK_eq : MODULO_MASK = 2 ^ 30 - 1 := by decide

theorem mask_eq_mod (x : Nat) : x &&& MODULO_MASK = x % 2 ^ 30 := by
  rw [ MODULO_MASK_eq, land_mask]

theorem shifted_cell (s k : Nat) : (s >>> (4 * k)) &&& 0xF = get_cell s k := by
  rw [get_cell]
  congr 2
  rw [Nat.shiftLeft_eq]
  ring

/-- The code's hash loop, after `n` iterations: the running word has been
shifted by `4n` bits and the running hash is the spec fold of the first `n`
cells. -/
theorem hash_loop (s n : Nat) :
    (List.range n).foldl
        (fun p _ => (p.1 >>> 4, (p.2 * 10 + (p.1 &&& 0xF)) &&& MODULO_MASK)) (s, 0)
      = (s >>> (4 * n),
         (List.range n).foldl (fun h i => (h * 10 + get_cell s i) % 2 ^ 30) 0) := by
  induction n with
  | zero => simp
  | succ n ih =>
    rw [List.range_succ, List.foldl_append, List.foldl_append, ih]
    simp only [List.foldl_cons, List.foldl_nil]
    rw [shifted_cell, mask_eq_mod, ← Nat.shiftRight_add]
    rw [show 4 * n + 4 = 4 * (n + 1) by ring]

theorem compute_hash_eq_spec (s : Nat) : compute_hash s = spec_fingerprint s := by
  rw [compute_hash, spec_fingerprint, hash_loop]

theorem compute_hash_lt (s : Nat) : compute_hash s < 2 ^ 30 := by
  rw [compute_hash_eq_spec, spec_fingerprint]
  have : ∀ l : List Nat, ∀ h : Nat, h < 2 ^ 30 →
      l.foldl (fun h i => (h * 10 + get_cell s i) % 2 ^ 30) h < 2 ^ 30 := by
    intro l
    induction l with
    | nil => intro h hh; simpa using hh
    | cons a l ih =>
      intro h hh
      exact ih _ (Nat.mod_lt _ (by norm_num))
  exact this _ 0 (by norm_num)

theorem get_cell_eq_zero_iff (s j : Nat) :
    get_cell s j = 0 ↔ ∀ k, k < 4 → s.testBit (4 * j + k) = false := by
  constructor
  · intro h k hk
    have := testBit_get_cell s j k
    rw [h, Nat.zero_testBit] at this
    simpa [hk] using this.symm
  · intro h
    apply Nat.eq_of_testBit_eq
    intro k
    rw [Nat.zero_testBit, testBit_get_cell]
    by_cases hk : k < 4
    · simp [hk, h k hk]
    · simp [hk]

theorem is_full_iff (s : Nat) :
    is_full s = true ↔ ∀ i, i < 9 → get_cell s i ≠ 0 := by
  have hM : (0x111111111 : Nat) < 2 ^ 36 := by norm_num
  have hMbit : ∀ i, i < 36 → (0x111111111 : Nat).testBit i = decide (i % 4 = 0) := by decide
  rw [is_full]
  simp only [beq_iff_eq]
  constructor
  · intro h i hi hz
    have hb : ∀ k, k < 4 → s.testBit (4 * i + k) = false := (get_cell_eq_zero_iff s i).mp hz
    -- bit 4*i of the or-fold must be set, but all four source bits vanish
    have hMb : (0x111111111 : Nat).testBit (4 * i) = true := by
      rw [hMbit _ (by omega)]
      simp [Nat.mul_mod_right]
    have := congrArg (fun x => x.testBit (4 * i)) h
    simp only [Nat.testBit_land, Nat.testBit_lor, Nat.testBit_shiftRight, hMb,
      Bool.and_true] at this
    have h0 := hb 0 (by norm_num)
    have h1 := hb 1 (by norm_num)
    have h2 := hb 2 (by norm_num)
    have h3 := hb 3 (by norm_num)
    rw [Nat.add_zero] at h0
    rw [show 1 + 4 * i = 4 * i + 1 by ring, show 2 + 4 * i = 4 * i + 2 by ring,
      show 3 + 4 * i = 4 * i + 3 by ring, h0, h1, h2, h3] at this
    simp at this
  · intro h
    apply Nat.eq_of_testBit_eq
    intro i
    rw [Nat.testBit_land]
    by_cases hi : i < 36
    · rw [hMbit i hi]
      by_cases h4 : i % 4 = 0
      · have hj : i / 4 < 9 := by omega
        have hne := h (i / 4) hj
        have hb : ¬∀ k, k < 4 → s.testBit (4 * (i / 4) + k) = false := by
          intro hall
          exact hne ((get_cell_eq_zero_iff s (i / 4)).mpr hall)
        push_neg at hb
        obtain ⟨k, hk, hbit⟩ := hb
        have hbit' : s.testBit (4 * (i / 4) + k) = true := by
          cases hx : s.testBit (4 * (i / 4) + k) with
          | false => exact absurd hx hbit
          | true => rfl
        have hor : (s ||| s >>> 1 ||| s >>> 2 ||| s >>> 3).testBit i = true := by
          simp only [Nat.testBit_lor, Nat.testBit_shiftRight]
          have hi4 : 4 * (i / 4) = i := by omega
          interval_cases k
          · rw [Nat.add_zero] at hbit'; rw [hi4] at hbit'; simp [hbit']
          · rw [show 4 * (i / 4) + 1 = 1 + i by omega] at hbit'; simp [hbit']
          · rw [show 4 * (i / 4) + 2 = 2 + i by omega] at hbit'; simp [hbit']
          · rw [show 4 * (i / 4) + 3 = 3 + i by omega] at hbit'; simp [hbit']
        simp [hor, h4]
      · simp [h4]
    · have hMhigh : (0x111111111 : Nat).testBit i = false :=
        Nat.testBit_lt_two_pow
          (lt_of_lt_of_le hM (Nat.pow_le_pow_right (by norm_num) (by omega)))
      simp [hMhigh]

theorem filterMap_if {α β : Type} (p : α → Prop) [DecidablePred p] (f : α → β) (l : List α) :
    l.filterMap (fun x => if p x then some (f x) else none)
      = (l.filter (fun x => decide (p x))).map f := by
  induction l with
  | nil => rfl
  | cons a l ih =>
    by_cases h : p a <;> simp [List.filterMap_cons, List.filter_cons, h, ih]

/-- The `valid_values` / `valid_masks` arrays hold exactly the value and mask
of each eligible neighbour, in order. -/
theorem valid_list_eq (s idx : Nat) :
    valid_list s idx
      = (eligible s idx).map (fun pos => (get_cell s pos, 0xF <<< (pos <<< 2))) := by
  rw [valid_list, eligible]
  exact filterMap_if _ _ _

theorem valid_list_length (s idx : Nat) :
    (valid_list s idx).length = (eligible s idx).length := by
  rw [valid_list_eq, List.length_map]

theorem NEIGHBORS_sound : ∀ idx, idx < 9 →
    (NEIGHBORS idx).Nodup ∧ (∀ p ∈ NEIGHBORS idx, p < 9) ∧ idx ∉ NEIGHBORS idx ∧
    (NEIGHBORS idx).length ≤ 4 := by decide

theorem eligible_sound (s idx : Nat) (hidx : idx < 9) :
    (eligible s idx).Nodup ∧ (∀ p ∈ eligible s idx, p < 9) ∧ idx ∉ eligible s idx ∧
    (eligible s idx).length ≤ 4 := by
  obtain ⟨hnd, hlt, hni, hlen⟩ := NEIGHBORS_sound idx hidx
  refine ⟨hnd.filter _, ?_, ?_, le_trans (List.length_filter_le _ _) hlen⟩
  · intro p hp
    exact hlt p (List.mem_of_mem_filter hp)
  · intro h
    exact hni (List.mem_of_mem_filter h)

/-- Members of the eligible list are non-empty, non-6 cells. -/
theorem eligible_mem (s idx p : Nat) (hp : p ∈ eligible s idx) :
    p ∈ NEIGHBORS idx ∧ get_cell s p ≠ 0 ∧ get_cell s p ≠ 6 := by
  rw [eligible] at hp
  have h1 := List.mem_of_mem_filter hp
  have h2 := List.of_mem_filter hp
  simp at h2
  exact ⟨h1, h2⟩

theorem testBit_window (p m : Nat) :
    ((0xF : Nat) <<< (p <<< 2)).testBit m = decide (4 * p ≤ m ∧ m < 4 * p + 4) := by
  have h15 : (0xF : Nat) = 2 ^ 4 - 1 := by norm_num
  have hsh : p <<< 2 = 4 * p := by rw [Nat.shiftLeft_eq]; ring
  rw [hsh, h15, Nat.testBit_shiftLeft, Nat.testBit_two_pow_sub_one]
  by_cases h1 : 4 * p ≤ m
  · by_cases h2 : m < 4 * p + 4
    · have h3 : m - 4 * p < 4 := by omega
      simp [h1, h2, h3]
    · have h3 : ¬(m - 4 * p < 4) := by omega
      simp [h1, h2, h3]
  · simp [h1]

theorem testBit_foldl_lor (l : List Nat) (acc m : Nat) :
    ((l.foldl (fun a x => a ||| x) acc).testBit m)
      = (acc.testBit m || l.any (fun x => x.testBit m)) := by
  induction l generalizing acc with
  | nil => simp
  | cons a l ih => simp [List.foldl_cons, ih, Nat.testBit_lor, Bool.or_assoc]

theorem nib_mask_testBit (ps : List Nat) (m : Nat) :
    (nib_mask ps).testBit m = ps.any (fun p => decide (4 * p ≤ m ∧ m < 4 * p + 4)) := by
  have h : nib_mask ps
      = (ps.map (fun p => (0xF : Nat) <<< (p <<< 2))).foldl (fun a x => a ||| x) 0 := by
    rw [nib_mask, List.foldl_map]
  rw [h, testBit_foldl_lor, Nat.zero_testBit, Bool.false_or, List.any_map]
  congr 1
  funext p
  exact testBit_window p m

/-- A merge word `(state & !mask) | (sum << shift)` stays below `2 ^ 36`. -/
theorem merge_state_lt (s idx sg : Nat) (ps : List Nat)
    (hs : s < 2 ^ 36) (hidx : idx < 9) (hsg : sg < 16) :
    (s &&& (U64_MAX ^^^ nib_mask ps)) ||| (sg <<< (idx <<< 2)) < 2 ^ 36 := by
  have hsh : idx <<< 2 = 4 * idx := by rw [Nat.shiftLeft_eq]; ring
  apply lt_pow_of_bits
  intro m hm
  rw [Nat.testBit_lor, Nat.testBit_land, hsh, Nat.testBit_shiftLeft]
  have hbs : s.testBit m = false :=
    Nat.testBit_lt_two_pow (lt_of_lt_of_le hs (Nat.pow_le_pow_right (by norm_num) hm))
  have hsg' : sg.testBit (m - 4 * idx) = false :=
    testBit_of_lt_16 _ _ hsg (by omega)
  simp [hbs, hsg']

/-- Cells of a merge word: the empty cell receives the sum, the chosen
neighbour cells are cleared, everything else is untouched. -/
theorem get_cell_merge (s idx sg j : Nat) (ps : List Nat) (hidx : idx < 9) (hj : j < 9)
    (hempty : get_cell s idx = 0) (hps : ∀ p ∈ ps, p < 9) (hpsidx : idx ∉ ps)
    (hsg : sg < 16) :
    get_cell ((s &&& (U64_MAX ^^^ nib_mask ps)) ||| (sg <<< (idx <<< 2))) j =
      if j = idx then sg else if j ∈ ps then 0 else get_cell s j := by
  have hsh : idx <<< 2 = 4 * idx := by rw [Nat.shiftLeft_eq]; ring
  have hU : U64_MAX = 2 ^ 64 - 1 := by norm_num [U64_MAX]
  apply Nat.eq_of_testBit_eq
  intro k
  by_cases hk : k < 4
  · rw [testBit_get_cell]
    rw [Nat.testBit_lor, Nat.testBit_land, hsh, Nat.testBit_shiftLeft, hU,
      Nat.testBit_xor, Nat.testBit_two_pow_sub_one, nib_mask_testBit]
    have h64 : 4 * j + k < 64 := by omega
    by_cases hji : j = idx
    · subst hji
      -- the window of no chosen cell covers this nibble, and the source nibble is empty
      have hmask : (ps.any fun p => decide (4 * p ≤ 4 * j + k ∧ 4 * j + k < 4 * p + 4))
          = false := by
        rw [List.any_eq_false]
        intro p hp
        have hp9 : p < 9 := hps p hp
        have hpj : p ≠ j := fun h => hpsidx (h ▸ hp)
        simp
        omega
      have hsb : s.testBit (4 * j + k) = false := by
        have := (get_cell_eq_zero_iff s j).mp hempty k hk
        exact this
      have hle : 4 * j ≤ 4 * j + k := by omega
      have hsub : 4 * j + k - 4 * j = k := by omega
      rw [hmask, hsb, hsub, if_pos rfl]
      simp [h64, hle, hk]
    · rw [if_neg hji]
      have hsg' : sg.testBit (4 * j + k - 4 * idx) = false ∨ ¬ 4 * idx ≤ 4 * j + k := by
        by_cases hord : 4 * idx ≤ 4 * j + k
        · left
          apply testBit_of_lt_16 _ _ hsg
          omega
        · right; exact hord
      by_cases hjps : j ∈ ps
      · have hmask : (ps.any fun p => decide (4 * p ≤ 4 * j + k ∧ 4 * j + k < 4 * p + 4))
            = true := by
          rw [List.any_eq_true]
          refine ⟨j, hjps, ?_⟩
          simp
          omega
        rw [if_pos hjps, hmask, Nat.zero_testBit]
        rcases hsg' with h | h
        · simp [h64, h]
        · simp [h64, h]
      · have hmask : (ps.any fun p => decide (4 * p ≤ 4 * j + k ∧ 4 * j + k < 4 * p + 4))
            = false := by
          rw [List.any_eq_false]
          intro p hp
          have hp9 : p < 9 := hps p hp
          have hpj : p ≠ j := fun h => hjps (h ▸ hp)
          simp
          omega
        rw [if_neg hjps, testBit_get_cell, hmask]
        rcases hsg' with h | h
        · simp [h64, h, hk]
        · simp [h64, h, hk]
  · have hk4 : 4 ≤ k := by omega
    rw [testBit_of_lt_16 _ _ (get_cell_lt _ _) hk4, Eq.comm]
    by_cases h1 : j = idx
    · rw [if_pos h1]
      exact testBit_of_lt_16 _ _ hsg hk4
    · rw [if_neg h1]
      by_cases h2 : j ∈ ps
      · rw [if_pos h2]
        exact Nat.zero_testBit k
      · rw [if_neg h2]
        exact testBit_of_lt_16 _ _ (get_cell_lt _ _) hk4

/-- Every combo in the table is a strictly increasing list of at least two
indices into the eligible list. -/
theorem COMBOS_entries : ∀ n, n ≤ 4 → ∀ combo ∈ COMBOS n,
    (∀ i ∈ combo, i < n) ∧ combo.Pairwise (· < ·) ∧ 2 ≤ combo.length := by
  intro n hn
  interval_cases n <;> decide

/-- Reading through `map` with an in-range index. -/
theorem getD_map {α β : Type} (f : α → β) (l : List α) (i : Nat) (d : α) (d' : β)
    (h : i < l.length) : (l.map f).getD i d' = f (l.getD i d) := by
  have h' : i < (l.map f).length := by simpa using h
  rw [List.getD_eq_get _ _ h', List.getD_eq_get _ _ h, List.get_map]

theorem getD_mem {α : Type} (l : List α) (i : Nat) (d : α) (h : i < l.length) :
    l.getD i d ∈ l := by
  rw [List.getD_eq_get _ _ h]
  exact List.get_mem l _ h

theorem combo_sum_eq (s idx : Nat) (combo : List Nat)
    (hc : ∀ i ∈ combo, i < (eligible s idx).length) :
    combo_sum (valid_list s idx) combo
      = ((chosen_of s idx combo).map (get_cell s)).sum := by
  rw [combo_sum, chosen_of, List.map_map]
  congr 1
  apply List.map_congr_left
  intro i hi
  rw [valid_list_eq, getD_map _ _ _ 0 _ (hc i hi)]
  rfl

theorem foldl_lor_congr (l : List Nat) (f g : Nat → Nat) (h : ∀ i ∈ l, f i = g i) :
    ∀ acc : Nat, l.foldl (fun a i => a ||| f i) acc = l.foldl (fun a i => a ||| g i) acc := by
  induction l with
  | nil => intro acc; rfl
  | cons a l ih =>
    intro acc
    rw [List.foldl_cons, List.foldl_cons, h a (List.mem_cons_self a l)]
    exact ih (fun i hi => h i (List.mem_cons_of_mem a hi)) _

theorem combo_mask_eq (s idx : Nat) (combo : List Nat)
    (hc : ∀ i ∈ combo, i < (eligible s idx).length) :
    combo_mask (valid_list s idx) combo = nib_mask (chosen_of s idx combo) := by
  rw [combo_mask, nib_mask, chosen_of, List.foldl_map]
  apply foldl_lor_congr
  intro i hi
  rw [valid_list_eq, getD_map _ _ _ 0 _ (hc i hi)]

theorem chosen_of_sound (s idx : Nat) (hidx : idx < 9) (combo : List Nat)
    (hc : ∀ i ∈ combo, i < (eligible s idx).length) :
    (∀ p ∈ chosen_of s idx combo, p < 9) ∧ idx ∉ chosen_of s idx combo ∧
    (∀ p ∈ chosen_of s idx combo, p ∈ eligible s idx) := by
  obtain ⟨_, hlt, hni, _⟩ := eligible_sound s idx hidx
  have hmem : ∀ p ∈ chosen_of s idx combo, p ∈ eligible s idx := by
    intro p hp
    rw [chosen_of] at hp
    obtain ⟨i, hi, rfl⟩ := List.mem_map.mp hp
    exact getD_mem _ _ _ (hc i hi)
  exact ⟨fun p hp => hlt p (hmem p hp), fun h => hni (hmem idx h), hmem⟩

/-- Clearing a list of cells with `set_cell _ _ 0`, cell view. -/
theorem get_cell_clear_fold (ps : List Nat) (hps : ∀ p ∈ ps, p < 9) :
    ∀ s j, j < 9 →
      get_cell (ps.foldl (fun st p => set_cell st p 0) s) j
        = if j ∈ ps then 0 else get_cell s j := by
  induction ps with
  | nil => intro s j hj; simp
  | cons a l ih =>
    intro s j hj
    rw [List.foldl_cons, ih (fun p hp => hps p (List.mem_cons_of_mem a hp)) _ j hj]
    have ha : a < 9 := hps a (List.mem_cons_self a l)
    by_cases hjl : j ∈ l
    · simp [hjl]
    · rw [if_neg hjl, get_cell_set_cell s a 0 j ha hj]
      by_cases hja : j = a
      · simp [hja]
      · simp [hja, hjl]

theorem clear_fold_lt (ps : List Nat) (hps : ∀ p ∈ ps, p < 9) :
    ∀ s, s < 2 ^ 36 → ps.foldl (fun st p => set_cell st p 0) s < 2 ^ 36 := by
  induction ps with
  | nil => intro s hs; simpa using hs
  | cons a l ih =>
    intro s hs
    rw [List.foldl_cons]
    exact ih (fun p hp => hps p (List.mem_cons_of_mem a hp)) _
      (set_cell_lt s a 0 hs (hps a (List.mem_cons_self a l)))

/-- The code's batch for an empty cell coincides with the spec's batch. -/
theorem cell_succs_eq_spec (s idx : Nat) (hs : s < 2 ^ 36) (hidx : idx < 9)
    (hempty : get_cell s idx = 0) :
    cell_succs s idx = spec_cell_succs s idx := by
  rw [cell_succs, spec_cell_succs, valid_list_length]
  by_cases hlen : (eligible s idx).length < 2
  · simp [hlen]
  · rw [if_neg hlen, if_neg hlen]
    have hlen4 : (eligible s idx).length ≤ 4 := (eligible_sound s idx hidx).2.2.2
    have hmap : (COMBOS (eligible s idx).length).filterMap (fun combo =>
        let sum := combo_sum (valid_list s idx) combo
        if sum > 6 then none
        else some ((s &&& (U64_MAX ^^^ combo_mask (valid_list s idx) combo))
          ||| (sum <<< (idx <<< 2))))
      = (COMBOS (eligible s idx).length).filterMap (fun combo =>
        let chosen := combo.map (fun i => (eligible s idx).getD i 0)
        let sigma := (chosen.map (get_cell s)).sum
        if sigma ≤ 6 then
          some (set_cell (chosen.foldl (fun st p => set_cell st p 0) s) idx sigma)
        else none) := by
      apply List.filterMap_congr
      intro combo hcombo
      obtain ⟨hin, _, _⟩ := COMBOS_entries _ hlen4 combo hcombo
      have hsum := combo_sum_eq s idx combo hin
      have hmask := combo_mask_eq s idx combo hin
      obtain ⟨hp9, hpidx, _⟩ := chosen_of_sound s idx hidx combo hin
      simp only [chosen_of] at hsum hmask hp9 hpidx
      rw [hsum, hmask]
      by_cases hle : ((combo.map (fun i => (eligible s idx).getD i 0)).map (get_cell s)).sum ≤ 6
      · rw [if_neg (by omega), if_pos hle]
        congr 1
        -- the masked merge word and the `set_cell` cascade have the same cells
        apply state_ext _ _
          (merge_state_lt s idx _ _ hs hidx (by omega))
          (set_cell_lt _ idx _
            (clear_fold_lt _ hp9 s hs) hidx)
        intro j hj
        rw [get_cell_merge s idx _ j _ hidx hj hempty hp9 hpidx (by omega),
          get_cell_set_cell _ idx _ j hidx hj]
        by_cases hji : j = idx
        · rw [if_pos hji, if_pos hji, Nat.mod_eq_of_lt (by omega)]
        · rw [if_neg hji, if_neg hji,
            get_cell_clear_fold _ hp9 s j hj]
      · rw [if_pos (by omega), if_neg hle]
    rw [hmap]

/-- Every member of a batch is either the simple placement or a merge word
over chosen neighbour cells with sum at most 6. -/
theorem cell_succs_cases (s idx s' : Nat) (hidx : idx < 9)
    (h : s' ∈ cell_succs s idx) :
    s' = set_cell s idx 1 ∨
    ∃ ps sg, (∀ p ∈ ps, p < 9) ∧ idx ∉ ps ∧ sg ≤ 6 ∧
      s' = (s &&& (U64_MAX ^^^ nib_mask ps)) ||| (sg <<< (idx <<< 2)) := by
  rw [cell_succs] at h
  by_cases hlen : (valid_list s idx).length < 2
  · rw [if_pos hlen] at h
    simp at h
    exact Or.inl h
  · rw [if_neg hlen] at h
    have hlist : (valid_list s idx).length = (eligible s idx).length := valid_list_length s idx
    have hlen4 : (valid_list s idx).length ≤ 4 := by
      rw [hlist]; exact (eligible_sound s idx hidx).2.2.2
    by_cases hemp : ((COMBOS (valid_list s idx).length).filterMap (fun combo =>
        let sum := combo_sum (valid_list s idx) combo
        if sum > 6 then none
        else some ((s &&& (U64_MAX ^^^ combo_mask (valid_list s idx) combo))
          ||| (sum <<< (idx <<< 2))))).isEmpty
    · rw [if_pos hemp] at h
      simp at h
      exact Or.inl h
    · rw [if_neg hemp] at h
      right
      obtain ⟨combo, hcombo, hval⟩ := List.mem_filterMap.mp h
      have hin : ∀ i ∈ combo, i < (eligible s idx).length := by
        have hc4 : (eligible s idx).length ≤ 4 := by omega
        have hcombo' : combo ∈ COMBOS (eligible s idx).length := by rwa [hlist] at hcombo
        exact (COMBOS_entries ((eligible s idx).length) hc4 combo hcombo').1
      by_cases hgt : combo_sum (valid_list s idx) combo > 6
      · simp [hgt] at hval
      · simp only [hgt, if_neg] at hval
        refine ⟨chosen_of s idx combo, combo_sum (valid_list s idx) combo,
          (chosen_of_sound s idx hidx combo hin).1,
          (chosen_of_sound s idx hidx combo hin).2.1, by omega, ?_⟩
        rw [← combo_mask_eq s idx combo hin]
        simp at hval
        exact hval.symm

/-- A batch is never empty: the fallback guarantees at least one successor. -/
theorem cell_succs_ne_nil (s idx : Nat) : cell_succs s idx ≠ [] := by
  rw [cell_succs]
  by_cases hlen : (valid_list s idx).length < 2
  · simp [hlen]
  · rw [if_neg hlen]
    by_cases hemp : ((COMBOS (valid_list s idx).length).filterMap (fun combo =>
        let sum := combo_sum (valid_list s idx) combo
        if sum > 6 then none
        else some ((s &&& (U64_MAX ^^^ combo_mask (valid_list s idx) combo))
          ||| (sum <<< (idx <<< 2))))).isEmpty
    · simp [hemp]
    · rw [if_neg hemp]
      intro hnil
      rw [hnil] at hemp
      exact hemp rfl

/-- Membership in the successor list, unpacked. -/
theorem successors_mem (s s' : Nat) (h : s' ∈ successors s) :
    ∃ idx, idx < 9 ∧ get_cell s idx = 0 ∧ s' ∈ cell_succs s idx := by
  rw [successors] at h
  obtain ⟨idx, hidx, hmem⟩ := List.mem_flatMap.mp h
  rw [empty_cells, List.mem_filter, List.mem_range] at hidx
  exact ⟨idx, hidx.1, by simpa using hidx.2, hmem⟩

/-- Successors stay inside the nine-cell range. -/
theorem successors_lt (s s' : Nat) (hs : s < 2 ^ 36) (h : s' ∈ successors s) :
    s' < 2 ^ 36 := by
  obtain ⟨idx, hidx, hempty, hmem⟩ := successors_mem s s' h
  rcases cell_succs_cases s idx s' hidx hmem with rfl | ⟨ps, sg, hps, _, hsg, rfl⟩
  · exact set_cell_lt s idx 1 hs hidx
  · exact merge_state_lt s idx sg ps hs hidx (by omega)

/-- One-step cap preservation: from a capped state the move generator only
produces capped states (merges are guarded by `sum ≤ 6`, placements write 1). -/
theorem successors_cells_le (s s' : Nat) (hs : s < 2 ^ 36)
    (hc : ∀ i, i < 9 → get_cell s i ≤ 6) (h : s' ∈ successors s) :
    ∀ i, i < 9 → get_cell s' i ≤ 6 := by
  obtain ⟨idx, hidx, hempty, hmem⟩ := successors_mem s s' h
  rcases cell_succs_cases s idx s' hidx hmem with rfl | ⟨ps, sg, hps, hpsidx, hsg, rfl⟩
  · intro i hi
    rw [get_cell_set_cell s idx 1 i hidx hi]
    by_cases hii : i = idx
    · simp [hii]
    · simp [hii]
      exact hc i hi
  · intro i hi
    rw [get_cell_merge s idx sg i ps hidx hi hempty hps hpsidx (by omega)]
    by_cases h1 : i = idx
    · simpa [h1] using hsg
    · rw [if_neg h1]
      by_cases h2 : i ∈ ps
      · simp [h2]
      · simp [h2]
        exact hc i hi

theorem lor_mod_two_pow (a b n : Nat) :
    (a ||| b) % 2 ^ n = (a % 2 ^ n) ||| (b % 2 ^ n) := by
  apply Nat.eq_of_testBit_eq
  intro i
  simp only [Nat.testBit_mod_two_pow, Nat.testBit_lor]
  by_cases hi : i < n <;> simp [hi]

theorem lor_div_two_pow (a b n : Nat) :
    (a ||| b) / 2 ^ n = (a / 2 ^ n) ||| (b / 2 ^ n) := by
  apply Nat.eq_of_testBit_eq
  intro i
  simp only [← Nat.shiftRight_eq_div_pow, Nat.testBit_shiftRight, Nat.testBit_lor]

/-- The memo key `(state << 6) | turn` decodes uniquely into its two fields
whenever the state fits 36 bits and the turn fits 6 bits. -/
theorem key_split (s t : Nat) (hs : s < 2 ^ 36) (ht : t < 64) :
    (((s <<< TURN_BITS) % 2 ^ 64) ||| t) % 64 = t ∧
    (((s <<< TURN_BITS) % 2 ^ 64) ||| t) / 64 = s := by
  have h6 : TURN_BITS = 6 := rfl
  have hsl : s <<< TURN_BITS = s * 2 ^ 6 := by rw [h6, Nat.shiftLeft_eq]
  have hlt : s * 2 ^ 6 < 2 ^ 64 := by
    calc s * 2 ^ 6 < 2 ^ 36 * 2 ^ 6 := mul_lt_mul_of_pos_right hs (by norm_num)
    _ ≤ 2 ^ 64 := by norm_num
  rw [hsl, Nat.mod_eq_of_lt hlt]
  have h64 : (64 : Nat) = 2 ^ 6 := by norm_num
  constructor
  · rw [h64, lor_mod_two_pow, Nat.mul_mod_left, Nat.mod_eq_of_lt (by omega)]
    simp
  · rw [h64, lor_div_two_pow, Nat.mul_div_cancel _ (by norm_num),
      Nat.div_eq_of_lt (by omega)]
    simp

theorem key_inj (s t s' t' : Nat) (hs : s < 2 ^ 36) (ht : t < 64)
    (hs' : s' < 2 ^ 36) (ht' : t' < 64)
    (h : ((s <<< TURN_BITS) % 2 ^ 64) ||| t = ((s' <<< TURN_BITS) % 2 ^ 64) ||| t') :
    s = s' ∧ t = t' := by
  obtain ⟨hm, hd⟩ := key_split s t hs ht
  obtain ⟨hm', hd'⟩ := key_split s' t' hs' ht'
  constructor
  · rw [← hd, ← hd', h]
  · rw [← hm, ← hm', h]

theorem dfs_foldl_none (fuel turn max_depth : Nat) (l : List Nat) :
    l.foldl (fun acc s => match acc with
      | none => none
      | some (m, t) => dfs fuel s turn max_depth m t) none = none := by
  induction l with
  | nil => rfl
  | cons a l ih => simpa using ih

theorem dfs_run_eq_foldl (fuel turn max_depth : Nat) (l : List Nat) :
    ∀ memo total, l.foldl (fun acc s => match acc with
        | none => none
        | some (m, t) => dfs fuel s turn max_depth m t) (some (memo, total))
      = dfs_run fuel l turn max_depth memo total := by
  induction l with
  | nil => intro memo total; rfl
  | cons a l ih =>
    intro memo total
    rw [List.foldl_cons, dfs_run]
    show l.foldl _ (dfs fuel a turn max_depth memo total) = _
    cases h : dfs fuel a turn max_depth memo total with
    | none => exact dfs_foldl_none fuel turn max_depth l
    | some p =>
      rcases p with ⟨m, t⟩
      exact ih m t

/-- The recursive case of `dfs`, phrased through `dfs_run`. -/
theorem dfs_succ (fuel state turn max_depth : Nat) (memo : List (Nat × Nat)) (total : Nat) :
    dfs (fuel + 1) state turn max_depth memo total =
      if turn == max_depth || is_full state then
        some (memo, (total + compute_hash state) &&& MODULO_MASK)
      else
        match memo.lookup (((state <<< TURN_BITS) % 2 ^ 64) ||| turn) with
        | some v => some (memo, (total + v) &&& MODULO_MASK)
        | none =>
          match dfs_run fuel (successors state) (turn + 1) max_depth memo total with
          | none => none
          | some (memo', total') =>
            some ((((state <<< TURN_BITS) % 2 ^ 64) ||| turn,
              (total' + MODULO - total) &&& MODULO_MASK) :: memo', total') := by
  simp only [dfs]
  by_cases hterm : (turn == max_depth || is_full state) = true
  · rw [if_pos hterm, if_pos hterm]
  · rw [if_neg hterm, if_neg hterm]
    cases hlook : memo.lookup (((state <<< TURN_BITS) % 2 ^ 64) ||| turn) with
    | some v => rfl
    | none => rw [dfs_run_eq_foldl]

theorem dfs_nm_foldl_none (fuel turn max_depth : Nat) (l : List Nat) :
    l.foldl (fun acc s => match acc with
      | none => none
      | some t => dfs_nm fuel s turn max_depth t) none = none := by
  induction l with
  | nil => rfl
  | cons a l ih => simpa using ih

theorem dfs_nm_run_eq_foldl (fuel turn max_depth : Nat) (l : List Nat) :
    ∀ total, l.foldl (fun acc s => match acc with
        | none => none
        | some t => dfs_nm fuel s turn max_depth t) (some total)
      = dfs_nm_run fuel l turn max_depth total := by
  induction l with
  | nil => intro total; rfl
  | cons a l ih =>
    intro total
    rw [List.foldl_cons, dfs_nm_run]
    show l.foldl _ (dfs_nm fuel a turn max_depth total) = _
    cases h : dfs_nm fuel a turn max_depth total with
    | none => exact dfs_nm_foldl_none fuel turn max_depth l
    | some t => exact ih t

/-- The recursive case of `dfs_nm`, phrased through `dfs_nm_run`. -/
theorem dfs_nm_succ (fuel state turn max_depth total : Nat) :
    dfs_nm (fuel + 1) state turn max_depth total =
      if turn == max_depth || is_full state then
        some ((total + compute_hash state) &&& MODULO_MASK)
      else dfs_nm_run fuel (successors state) (turn + 1) max_depth total := by
  rw [dfs_nm]
  by_cases hterm : (turn == max_depth || is_full state) = true
  · rw [if_pos hterm, if_pos hterm]
  · rw [if_neg hterm, if_neg hterm, dfs_nm_run_eq_foldl]

theorem dfs_some (fuel max_depth : Nat) :
    (∀ s turn memo total, turn ≤ max_depth → max_depth - turn < fuel →
      (dfs fuel s turn max_depth memo total).isSome = true) ∧
    (∀ l turn memo total, turn ≤ max_depth → max_depth - turn < fuel →
      (dfs_run fuel l turn max_depth memo total).isSome = true) := by
  induction fuel with
  | zero => exact ⟨fun _ _ _ _ _ h => absurd h (by omega),
      fun _ _ _ _ _ h => absurd h (by omega)⟩
  | succ fuel ih =>
    have hdfs : ∀ s turn memo total, turn ≤ max_depth → max_depth - turn < fuel + 1 →
        (dfs (fuel + 1) s turn max_depth memo total).isSome = true := by
      intro s turn memo total hturn hfuel
      rw [dfs_succ]
      cases hterm : (turn == max_depth || is_full s) with
      | true => simp
      | false =>
        simp only [Bool.false_eq_true, if_neg]
        have hne : turn ≠ max_depth := by
          intro h
          rw [h] at hterm
          simp at hterm
        cases hlook : memo.lookup (((s <<< TURN_BITS) % 2 ^ 64) ||| turn) with
        | some v => simp [hlook]
        | none =>
          simp only [hlook]
          have hrun := ih.2 (successors s) (turn + 1) memo total (by omega) (by omega)
          cases hres : dfs_run fuel (successors s) (turn + 1) max_depth memo total with
          | none => rw [hres] at hrun; simp at hrun
          | some p =>
            rcases p with ⟨memo', total'⟩
            simp [hres]
    refine ⟨hdfs, ?_⟩
    intro l
    induction l with
    | nil => intro turn memo total h1 h2; rw [dfs_run]; rfl
    | cons a l ihl =>
      intro turn memo total h1 h2
      rw [dfs_run]
      have ha := hdfs a turn memo total h1 h2
      cases hres : dfs (fuel + 1) a turn max_depth memo total with
      | none => rw [hres] at ha; simp at ha
      | some p =>
        rcases p with ⟨memo', total'⟩
        simpa using ihl turn memo' total' h1 h2

theorem delta_fuel_lt (fuel s turn max_depth : Nat) :
    delta_fuel fuel s turn max_depth < 2 ^ 30 := by
  cases fuel with
  | zero => rw [delta_fuel]; norm_num
  | succ fuel =>
    rw [delta_fuel]
    by_cases hterm : (turn == max_depth || is_full s) = true
    · rw [if_pos hterm]
      exact compute_hash_lt s
    · rw [if_neg hterm]
      exact Nat.mod_lt _ (by norm_num)

theorem delta_fuel_congr (f1 : Nat) : ∀ f2 s turn max_depth, turn ≤ max_depth →
    max_depth - turn < f1 → max_depth - turn < f2 →
    delta_fuel f1 s turn max_depth = delta_fuel f2 s turn max_depth := by
  induction f1 with
  | zero => intro f2 s turn md h hf1 hf2; omega
  | succ f1 ih =>
    intro f2 s turn md h hf1 hf2
    cases f2 with
    | zero => omega
    | succ f2 =>
      rw [delta_fuel, delta_fuel]
      by_cases hterm : (turn == md || is_full s) = true
      · rw [if_pos hterm, if_pos hterm]
      · rw [if_neg hterm, if_neg hterm]
        have hne : turn ≠ md := by
          intro hx
          rw [hx] at hterm
          simp at hterm
        congr 2
        apply List.map_congr_left
        intro s' _
        exact ih f2 s' (turn + 1) md (by omega) (by omega) (by omega)

theorem delta_lt (s turn max_depth : Nat) : delta s turn max_depth < 2 ^ 30 :=
  delta_fuel_lt _ s turn max_depth

/-- One-step unfolding of the subtree contribution. -/
theorem delta_unfold (s turn max_depth : Nat) (h : turn ≤ max_depth) :
    delta s turn max_depth
      = if (turn == max_depth || is_full s) = true then compute_hash s
        else ((successors s).map (fun s' => delta s' (turn + 1) max_depth)).sum % 2 ^ 30 := by
  rw [delta, show max_depth + 1 - turn = (max_depth - turn) + 1 by omega, delta_fuel]
  by_cases hterm : (turn == max_depth || is_full s) = true
  · rw [if_pos hterm, if_pos hterm]
  · rw [if_neg hterm, if_neg hterm]
    have hne : turn ≠ max_depth := by
      intro hx
      rw [hx] at hterm
      simp at hterm
    congr 2
    apply List.map_congr_left
    intro s' _
    rw [delta]
    exact delta_fuel_congr _ _ s' (turn + 1) max_depth (by omega) (by omega) (by omega)

theorem dfs_nm_correct (fuel max_depth : Nat) :
    (∀ s turn total, turn ≤ max_depth → max_depth - turn < fuel → total < 2 ^ 30 →
      dfs_nm fuel s turn max_depth total
        = some ((total + delta s turn max_depth) % 2 ^ 30)) ∧
    (∀ l turn total, turn ≤ max_depth → max_depth - turn < fuel → total < 2 ^ 30 →
      dfs_nm_run fuel l turn max_depth total
        = some ((total + (l.map (fun s => delta s turn max_depth)).sum) % 2 ^ 30)) := by
  induction fuel with
  | zero => exact ⟨fun _ _ _ _ h _ => absurd h (by omega),
      fun _ _ _ _ h _ => absurd h (by omega)⟩
  | succ fuel ih =>
    have hdfs : ∀ s turn total, turn ≤ max_depth → max_depth - turn < fuel + 1 →
        total < 2 ^ 30 →
        dfs_nm (fuel + 1) s turn max_depth total
          = some ((total + delta s turn max_depth) % 2 ^ 30) := by
      intro s turn total hturn hfuel htot
      rw [dfs_nm_succ, delta_unfold s turn max_depth hturn]
      cases hterm : (turn == max_depth || is_full s) with
      | true => simp [mask_eq_mod]
      | false =>
        rw [if_neg (by simp), if_neg (by simp)]
        have hne : turn ≠ max_depth := by
          intro h
          rw [h] at hterm
          simp at hterm
        rw [ih.2 (successors s) (turn + 1) total (by omega) (by omega) htot,
          Nat.add_mod_mod]
    refine ⟨hdfs, ?_⟩
    intro l
    induction l with
    | nil =>
      intro turn total h1 h2 htot
      rw [dfs_nm_run]
      simp
      exact (Nat.mod_eq_of_lt htot).symm
    | cons a l ihl =>
      intro turn total h1 h2 htot
      rw [dfs_nm_run, hdfs a turn total h1 h2 htot]
      show dfs_nm_run (fuel + 1) l turn max_depth ((total + delta a turn max_depth) % 2 ^ 30)
        = _
      rw [ihl turn _ h1 h2 (Nat.mod_lt _ (by norm_num))]
      rw [List.map_cons, List.sum_cons, Nat.mod_add_mod, Nat.add_assoc]

theorem memo_ok_nil (max_depth : Nat) : memo_ok max_depth [] := by
  intro k v h
  simp [List.lookup] at h

/-- Extracting a subtree's contribution from the masked accumulator
difference `(total' + MODULO - start) & MODULO_MASK`. -/
theorem delta_extract (total sub : Nat) (h : total < 2 ^ 30) :
    ((total + sub) % 2 ^ 30 + MODULO - total) &&& MODULO_MASK = sub % 2 ^ 30 := by
  rw [mask_eq_mod, MODULO_eq,
    show (total + sub) % 2 ^ 30 + 2 ^ 30 - total
      = (total + sub) % 2 ^ 30 + (2 ^ 30 - total) by omega,
    Nat.mod_add_mod,
    show total + sub + (2 ^ 30 - total) = sub + 2 ^ 30 by omega,
    Nat.add_mod_right]

theorem dfs_memo_correct (fuel max_depth : Nat) (hmd : max_depth < 64) :
    (∀ s turn memo total, s < 2 ^ 36 → turn ≤ max_depth → max_depth - turn < fuel →
        total < 2 ^ 30 → memo_ok max_depth memo →
      ∃ memo', dfs fuel s turn max_depth memo total
          = some (memo', (total + delta s turn max_depth) % 2 ^ 30) ∧
        memo_ok max_depth memo') ∧
    (∀ l turn memo total, (∀ x ∈ l, x < 2 ^ 36) → turn ≤ max_depth →
        max_depth - turn < fuel → total < 2 ^ 30 → memo_ok max_depth memo →
      ∃ memo', dfs_run fuel l turn max_depth memo total
          = some (memo', (total + (l.map (fun x => delta x turn max_depth)).sum) % 2 ^ 30) ∧
        memo_ok max_depth memo') := by
  induction fuel with
  | zero => exact ⟨fun _ _ _ _ _ _ h => absurd h (by omega),
      fun _ _ _ _ _ _ h => absurd h (by omega)⟩
  | succ fuel ih =>
    have hdfs : ∀ s turn memo total, s < 2 ^ 36 → turn ≤ max_depth →
        max_depth - turn < fuel + 1 → total < 2 ^ 30 → memo_ok max_depth memo →
        ∃ memo', dfs (fuel + 1) s turn max_depth memo total
            = some (memo', (total + delta s turn max_depth) % 2 ^ 30) ∧
          memo_ok max_depth memo' := by
      intro s turn memo total hs hturn hfuel htot hmemo
      rw [dfs_succ, delta_unfold s turn max_depth hturn]
      cases hterm : (turn == max_depth || is_full s) with
      | true =>
        refine ⟨memo, ?_, hmemo⟩
        simp [mask_eq_mod]
      | false =>
        have hne : turn ≠ max_depth := by
          intro h
          rw [h] at hterm
          simp at hterm
        rw [if_neg (by simp), if_neg (by simp)]
        cases hlook : memo.lookup (((s <<< TURN_BITS) % 2 ^ 64) ||| turn) with
        | some v =>
          obtain ⟨s', t', hs', ht', hkey, hval⟩ := hmemo _ v hlook
          obtain ⟨hseq, hteq⟩ :=
            key_inj s turn s' t' hs (by omega) hs' (by omega) hkey
          refine ⟨memo, ?_, hmemo⟩
          simp only [hlook]
          rw [mask_eq_mod, hval, ← hseq, ← hteq,
            delta_unfold s turn max_depth hturn]
          simp [hterm]
        | none =>
          obtain ⟨memo', hrun, hmemo'⟩ := ih.2 (successors s) (turn + 1) memo total
            (fun x hx => successors_lt s x hs hx) (by omega) (by omega) htot hmemo
          simp only [hlook, hrun]
          refine ⟨(((s <<< TURN_BITS) % 2 ^ 64) ||| turn,
            ((total + ((successors s).map
                (fun x => delta x (turn + 1) max_depth)).sum) % 2 ^ 30
              + MODULO - total) &&& MODULO_MASK) :: memo', ?_, ?_⟩
          · rw [Nat.add_mod_mod]
          · intro k v hkv
            rw [List.lookup] at hkv
            by_cases hk : k = ((s <<< TURN_BITS) % 2 ^ 64) ||| turn
            · rw [hk, beq_self_eq_true] at hkv
              refine ⟨s, turn, hs, by omega, hk, ?_⟩
              have hv : v = ((total + ((successors s).map
                  (fun x => delta x (turn + 1) max_depth)).sum) % 2 ^ 30
                + MODULO - total) &&& MODULO_MASK := by
                simpa using hkv.symm
              rw [hv, delta_extract _ _ htot, delta_unfold s turn max_depth hturn]
              simp [hterm]
            · rw [beq_eq_false_iff_ne.mpr hk] at hkv
              exact hmemo' k v hkv
    refine ⟨hdfs, ?_⟩
    intro l
    induction l with
    | nil =>
      intro turn memo total hl h1 h2 htot hmemo
      rw [dfs_run]
      refine ⟨memo, ?_, hmemo⟩
      simp
      exact (Nat.mod_eq_of_lt htot).symm
    | cons a l ihl =>
      intro turn memo total hl h1 h2 htot hmemo
      obtain ⟨memo', ha, hmemo'⟩ := hdfs a turn memo total
        (hl a (List.mem_cons_self a l)) h1 h2 htot hmemo
      obtain ⟨memo'', hrest, hmemo''⟩ := ihl turn memo'
        ((total + delta a turn max_depth) % 2 ^ 30)
        (fun x hx => hl x (List.mem_cons_of_mem a hx)) h1 h2
        (Nat.mod_lt _ (by norm_num)) hmemo'
      refine ⟨memo'', ?_, hmemo''⟩
      rw [dfs_run, ha]
      show dfs_run (fuel + 1) l turn max_depth memo'
          ((total + delta a turn max_depth) % 2 ^ 30) = _
      rw [hrest, List.map_cons, List.sum_cons, Nat.mod_add_mod, Nat.add_assoc]

theorem dfs_bounds (fuel max_depth : Nat) :
    (∀ s turn memo total memo' total', total < 2 ^ 30 →
        (∀ kv ∈ memo, kv.2 < 2 ^ 30) →
        dfs fuel s turn max_depth memo total = some (memo', total') →
        total' < 2 ^ 30 ∧ ∀ kv ∈ memo', kv.2 < 2 ^ 30) ∧
    (∀ l turn memo total memo' total', total < 2 ^ 30 →
        (∀ kv ∈ memo, kv.2 < 2 ^ 30) →
        dfs_run fuel l turn max_depth memo total = some (memo', total') →
        total' < 2 ^ 30 ∧ ∀ kv ∈ memo', kv.2 < 2 ^ 30) := by
  induction fuel with
  | zero =>
    constructor
    · intro s turn memo total memo' total' _ _ heq
      rw [dfs] at heq
      cases heq
    · intro l turn memo total memo' total' htot hmemo heq
      cases l with
      | nil =>
        rw [dfs_run] at heq
        obtain ⟨h1, h2⟩ := Prod.mk.injEq .. ▸ (Option.some.injEq .. ▸ heq)
        exact ⟨h2 ▸ htot, h1 ▸ hmemo⟩
      | cons a l =>
        rw [dfs_run] at heq
        rw [show dfs 0 a turn max_depth memo total = none from rfl] at heq
        cases heq
  | succ fuel ih =>
    have hdfs : ∀ s turn memo total memo' total', total < 2 ^ 30 →
        (∀ kv ∈ memo, kv.2 < 2 ^ 30) →
        dfs (fuel + 1) s turn max_depth memo total = some (memo', total') →
        total' < 2 ^ 30 ∧ ∀ kv ∈ memo', kv.2 < 2 ^ 30 := by
      intro s turn memo total memo' total' htot hmemo heq
      rw [dfs_succ] at heq
      by_cases hterm : (turn == max_depth || is_full s) = true
      · rw [if_pos hterm] at heq
        simp only [Option.some.injEq, Prod.mk.injEq] at heq
        refine ⟨?_, heq.1 ▸ hmemo⟩
        rw [← heq.2, mask_eq_mod]
        exact Nat.mod_lt _ (by norm_num)
      · rw [if_neg hterm] at heq
        cases hlook : memo.lookup (((s <<< TURN_BITS) % 2 ^ 64) ||| turn) with
        | some v =>
          rw [hlook] at heq
          simp only [Option.some.injEq, Prod.mk.injEq] at heq
          refine ⟨?_, heq.1 ▸ hmemo⟩
          rw [← heq.2, mask_eq_mod]
          exact Nat.mod_lt _ (by norm_num)
        | none =>
          rw [hlook] at heq
          cases hres : dfs_run fuel (successors s) (turn + 1) max_depth memo total with
          | none => rw [hres] at heq; cases heq
          | some p =>
            rcases p with ⟨m1, t1⟩
            rw [hres] at heq
            obtain ⟨ht1, hm1⟩ := ih.2 (successors s) (turn + 1) memo total m1 t1
              htot hmemo hres
            simp only [Option.some.injEq, Prod.mk.injEq] at heq
            refine ⟨heq.2 ▸ ht1, ?_⟩
            rw [← heq.1]
            intro kv hkv
            rcases List.mem_cons.mp hkv with rfl | h
            · rw [mask_eq_mod]
              exact Nat.mod_lt _ (by norm_num)
            · exact hm1 kv h
    refine ⟨hdfs, ?_⟩
    intro l
    induction l with
    | nil =>
      intro turn memo total memo' total' htot hmemo heq
      rw [dfs_run] at heq
      obtain ⟨h1, h2⟩ := Prod.mk.injEq .. ▸ (Option.some.injEq .. ▸ heq)
      exact ⟨h2 ▸ htot, h1 ▸ hmemo⟩
    | cons a l ihl =>
      intro turn memo total memo' total' htot hmemo heq
      rw [dfs_run] at heq
      cases ha : dfs (fuel + 1) a turn max_depth memo total with
      | none => rw [ha] at heq; cases heq
      | some p =>
        rcases p with ⟨m1, t1⟩
        rw [ha] at heq
        obtain ⟨ht1, hm1⟩ := hdfs a turn memo total m1 t1 htot hmemo ha
        exact ihl turn m1 t1 memo' total' ht1 hm1 heq

set_option maxRecDepth 4000 in
/-- On any 9-bit mask the loop enumerates the set bits in ascending order. -/
theorem mask_loop_spec : ∀ m, m < 2 ^ 9 →
    mask_loop 9 m = (List.range 9).filter (fun i => m.testBit i) := by decide

theorem empty_mask_testBit (s j : Nat) :
    (empty_mask s).testBit j = decide (j < 9 ∧ get_cell s j = 0) := by
  have h : empty_mask s
      = ((List.range 9).map
          (fun idx => (if get_cell s idx = 0 then (1 : Nat) else 0) <<< idx)).foldl
        (fun a x => a ||| x) 0 := by
    rw [empty_mask, List.foldl_map]
  rw [h, testBit_foldl_lor, Nat.zero_testBit, Bool.false_or, List.any_map]
  by_cases hj : j < 9 ∧ get_cell s j = 0
  · rw [decide_eq_true hj]
    rw [List.any_eq_true]
    refine ⟨j, List.mem_range.mpr hj.1, ?_⟩
    simp only [Function.comp]
    rw [if_pos hj.2, Nat.shiftLeft_eq, one_mul, Nat.testBit_two_pow_self]
  · rw [decide_eq_false hj]
    rw [List.any_eq_false]
    intro i hi
    simp only [Function.comp]
    by_cases hcell : get_cell s i = 0
    · rw [if_pos hcell, Nat.shiftLeft_eq, one_mul]
      have hij : i ≠ j := by
        intro hx
        exact hj ⟨hx ▸ List.mem_range.mp hi, hx ▸ hcell⟩
      simp [Nat.testBit_two_pow_of_ne hij]
    · rw [if_neg hcell]
      simp

theorem empty_mask_lt (s : Nat) : empty_mask s < 2 ^ 9 := by
  apply lt_pow_of_bits
  intro i hi
  rw [empty_mask_testBit]
  simp
  omega

/-- The source's bit-trick loop over `empty_mask` visits exactly the empty
cells, in ascending index order. -/
theorem mask_loop_empty_cells (s : Nat) :
    mask_loop 9 (empty_mask s) = empty_cells s := by
  rw [mask_loop_spec (empty_mask s) (empty_mask_lt s), empty_cells]
  apply List.filter_congr
  intro i hi
  rw [empty_mask_testBit]
  have h9 : i < 9 := List.mem_range.mp hi
  by_cases hc : get_cell s i = 0
  · simp [h9, hc]
  · simp [h9, hc]


/-- C1: memoization does not change the output.  For every initial board
whose nine cells are in [0, 6] (hence the packed word is below 2^36) and
every depth bound D < 64, the memoized search and the identical recursion
with the cache disabled (every lookup misses, nothing inserted) produce the
same final accumulator. -/
theorem C1_cache_equivalence (state D : Nat) (hs : state < 2 ^ 36)
    (hc : ∀ i, i < 9 → get_cell state i ≤ 6) (hD : D < 64) :
    (dfs (D + 1) state 0 D [] 0).map Prod.snd = dfs_nm (D + 1) state 0 D 0 := by
  obtain ⟨memo', heq, _⟩ := (dfs_memo_correct (D + 1) D hD).1 state 0 [] 0 hs
    (by omega) (by omega) (by norm_num) (memo_ok_nil D)
  rw [heq, (dfs_nm_correct (D + 1) D).1 state 0 0 (by omega) (by omega) (by norm_num)]
  rfl

theorem C1_cache_equivalence_witness :
    (0 : Nat) < 2 ^ 36 ∧ (∀ i, i < 9 → get_cell 0 i ≤ 6) ∧ (1 : Nat) < 64 ∧
    (dfs (1 + 1) 0 0 1 [] 0).map Prod.snd = dfs_nm (1 + 1) 0 0 1 0 :=
  ⟨by decide, by decide, by decide,
    C1_cache_equivalence 0 1 (by decide) (by decide) (by decide)⟩

/-- C2: for a state with cells in [0, 6] and an empty cell c, the emitted
batch is exactly the spec's: the eligible set E filters non-zero, non-6
neighbours; |E| < 2 gives the single placement `set_cell S c 1`; otherwise
one successor per table combo whose value sum is at most 6 (chosen cells
cleared, c set to the sum), with the placement as fallback, so every empty
cell contributes at least one successor.  Empty cells are visited in
ascending index order, and for each |E| the table lists every index subset
of size ≥ 2 exactly once (distinct, sorted, complete by count). -/
theorem C2_move_generator (s : Nat) (hs : s < 2 ^ 36)
    (hc : ∀ i, i < 9 → get_cell s i ≤ 6) :
    (∀ c, c < 9 → get_cell s c = 0 →
      cell_succs s c = spec_cell_succs s c ∧ cell_succs s c ≠ []) ∧
    successors s = (mask_loop 9 (empty_mask s)).flatMap (cell_succs s) ∧
    (∀ n, 2 ≤ n → n ≤ 4 →
      (COMBOS n).Nodup ∧ (COMBOS n).length = 2 ^ n - 1 - n ∧
      ∀ combo ∈ COMBOS n, (∀ i ∈ combo, i < n) ∧ combo.Pairwise (· < ·) ∧
        2 ≤ combo.length) := by
  refine ⟨fun c hcc hce =>
    ⟨cell_succs_eq_spec s c hs hcc hce, cell_succs_ne_nil s c⟩, ?_, ?_⟩
  · rw [mask_loop_empty_cells, successors]
  · intro n h2 h4
    interval_cases n <;> exact ⟨by decide, by decide, by decide⟩

theorem C2_move_generator_witness :
    (0 : Nat) < 2 ^ 36 ∧ (∀ i, i < 9 → get_cell 0 i ≤ 6) ∧
    (∀ c, c < 9 → get_cell 0 c = 0 →
      cell_succs 0 c = spec_cell_succs 0 c ∧ cell_succs 0 c ≠ []) :=
  ⟨by decide, by decide, fun c h1 h2 => (C2_move_generator 0 (by decide) (by decide)).1 c h1 h2⟩

/-- C4: for every state with no bits above bit 35, `compute_hash` is the
spec's base-10 fold over the nine cells in ascending index order modulo
2^30 (cell 0 most significant); the board 1 2 3 / 4 5 6 / 1 2 3 has
fingerprint 123456123. -/
theorem C4_fingerprint :
    (∀ s, s < 2 ^ 36 → compute_hash s = spec_fingerprint s) ∧
    compute_hash (board_of [1, 2, 3, 4, 5, 6, 1, 2, 3]) = 123456123 :=
  ⟨fun s _ => compute_hash_eq_spec s, by decide⟩

theorem C4_fingerprint_witness :
    (0 : Nat) < 2 ^ 36 ∧ compute_hash 0 = spec_fingerprint 0 :=
  ⟨by decide, C4_fingerprint.1 0 (by decide)⟩

/-- C5: with D = 0 the search output (as `main` invokes it: turn 0, empty
memo, zero accumulator) is the initial board's fingerprint mod 2^30 for
every board, and for an already-full initial board the same holds for every
D ≥ 0. -/
theorem C5_terminal_laws :
    (∀ state, run_search state 0 = some (compute_hash state % 2 ^ 30)) ∧
    (∀ state D, is_full state = true →
      run_search state D = some (compute_hash state % 2 ^ 30)) := by
  constructor
  · intro state
    rw [run_search, dfs_succ]
    simp [mask_eq_mod]
  · intro state D hfull
    rw [run_search, dfs_succ]
    simp [hfull, mask_eq_mod]

theorem C5_terminal_laws_witness :
    is_full 0x111111111 = true ∧
    run_search 0x111111111 7 = some (compute_hash 0x111111111 % 2 ^ 30) :=
  ⟨by decide, C5_terminal_laws.2 0x111111111 7 (by decide)⟩

/-- C6: cap invariant: one move-generator step preserves "all nine cells
≤ 6" (merges are emitted only with sum ≤ 6, placements write 1), hence
every state reachable from a capped initial state is capped. -/
theorem C6_cap_invariant (s0 : Nat) (hs0 : s0 < 2 ^ 36)
    (hc0 : ∀ i, i < 9 → get_cell s0 i ≤ 6) :
    (∀ s s', s < 2 ^ 36 → (∀ i, i < 9 → get_cell s i ≤ 6) →
      s' ∈ successors s → ∀ i, i < 9 → get_cell s' i ≤ 6) ∧
    (∀ s, reachable s0 s → s < 2 ^ 36 ∧ ∀ i, i < 9 → get_cell s i ≤ 6) := by
  refine ⟨fun s s' hs hc h => successors_cells_le s s' hs hc h, ?_⟩
  intro s hr
  induction hr with
  | refl => exact ⟨hs0, hc0⟩
  | step hr hmem ih =>
    exact ⟨successors_lt _ _ ih.1 hmem, successors_cells_le _ _ ih.1 ih.2 hmem⟩

theorem C6_cap_invariant_witness :
    (0 : Nat) < 2 ^ 36 ∧ (∀ i, i < 9 → get_cell 0 i ≤ 6) ∧
    (∀ s, reachable 0 s → s < 2 ^ 36 ∧ ∀ i, i < 9 → get_cell s i ≤ 6) :=
  ⟨by decide, by decide, (C6_cap_invariant 0 (by decide) (by decide)).2⟩

/-- C7: for every state with no bits above bit 35, the bit-plane OR test of
`is_full` is equivalent to "all nine cells are non-zero". -/
theorem C7_is_full_cells (s : Nat) (hs : s < 2 ^ 36) :
    is_full s = true ↔ ∀ i, i < 9 → get_cell s i ≠ 0 :=
  is_full_iff s

theorem C7_is_full_cells_witness :
    (0x111111111 : Nat) < 2 ^ 36 ∧
    (is_full 0x111111111 = true ↔ ∀ i, i < 9 → get_cell 0x111111111 i ≠ 0) :=
  ⟨by decide, C7_is_full_cells 0x111111111 (by decide)⟩

/-- C9: the recursion terminates, with recursion depth at most `D - turn`
from any call with `turn ≤ D`: fuel `D - turn + 1` always suffices, because
the turn increases by one on every recursive call and every branch stops on
reaching D or a full board. -/
theorem C9_termination (state turn D total : Nat) (memo : List (Nat × Nat))
    (h : turn ≤ D) :
    (dfs (D - turn + 1) state turn D memo total).isSome = true :=
  (dfs_some (D - turn + 1) D).1 state turn memo total h (by omega)

theorem C9_termination_witness :
    (0 : Nat) ≤ 3 ∧ (dfs (3 - 0 + 1) 0 0 3 [] 0).isSome = true :=
  ⟨by decide, C9_termination 0 0 3 0 [] (by decide)⟩

/-- C8: the accumulator and every delta inserted into the memo map lie in
[0, 2^30) after every update, and the program's printed output is in
[0, 2^30). -/
theorem C8_range :
    (∀ fuel state turn D memo total memo' total',
        total < 2 ^ 30 → (∀ kv ∈ memo, kv.2 < 2 ^ 30) →
        dfs fuel state turn D memo total = some (memo', total') →
        total' < 2 ^ 30 ∧ ∀ kv ∈ memo', kv.2 < 2 ^ 30) ∧
    (∀ input n, main_model input = some n → n < 2 ^ 30) := by
  refine ⟨fun fuel state turn D => (dfs_bounds fuel D).1 state turn, ?_⟩
  intro input n h
  cases hp : parse_input input with
  | none => rw [main_model, hp] at h; cases h
  | some p =>
    rw [main_model, hp] at h
    simp at h
    rw [run_search] at h
    cases hd : dfs (p.1 + 1) p.2 0 p.1 [] 0 with
    | none => rw [hd] at h; cases h
    | some q =>
      rw [hd] at h
      simp at h
      obtain ⟨hq, _⟩ := (dfs_bounds (p.1 + 1) p.1).1 p.2 0 [] 0 q.1 q.2
        (by norm_num) (by simp) hd
      rw [← h]
      exact hq

theorem C8_range_witness :
    main_model ["0".data, "1 2 3".data, "4 5 6".data, "1 2 3".data] = some 123456123 ∧
    (123456123 : Nat) < 2 ^ 30 :=
  ⟨by decide,
    C8_range.2 ["0".data, "1 2 3".data, "4 5 6".data, "1 2 3".data] 123456123 (by decide)⟩

/-- C10: `main` performs no range validation: `set_cell` stores the parsed
value modulo 16 (a parsed 16 is stored as 0), and a depth of 64 or more is
accepted and handed to the search unchecked, where the memo key packs it
into the 6 low bits below the shifted state. -/
theorem C10_no_validation :
    (∀ s i v, i < 9 → get_cell (set_cell s i v) i = v % 16) ∧
    parse_input ["0".data, "16 0 0".data, "0 0 0".data, "0 0 0".data] = some (0, 0) ∧
    parse_input ["64".data, "1 2 3".data, "4 5 6".data, "1 2 3".data]
      = some (64, 0x321654321) ∧
    main_model ["64".data, "1 2 3".data, "4 5 6".data, "1 2 3".data]
      = some 123456123 := by
  refine ⟨?_, by decide, by decide, by decide⟩
  intro s i v hi
  rw [get_cell_set_cell s i v i hi hi, if_pos rfl]

theorem C10_no_validation_witness :
    (0 : Nat) < 9 ∧ get_cell (set_cell 0 0 16) 0 = 16 % 16 :=
  ⟨by decide, C10_no_validation.1 0 0 16 (by decide)⟩

theorem get?_eq_getD {α : Type} (l : List α) (i : Nat) (d : α) (h : i < l.length) :
    l.get? i = some (l.getD i d) := by
  rw [List.getD_eq_get _ _ h, List.get?_eq_get h]

/-- A successful parse always yields an answer: the search itself cannot
abort (its fuel suffices), so the exit status depends on parsing alone. -/
theorem main_model_some_of_parse (input : List (List Char)) (p : Nat × Nat)
    (hp : parse_input input = some p) : (main_model input).isSome = true := by
  rw [main_model, hp]
  have hsome := (dfs_some (p.1 + 1) p.1).1 p.2 0 [] 0 (by omega) (by omega)
  cases hd : dfs (p.1 + 1) p.2 0 p.1 [] 0 with
  | none => rw [hd] at hsome; simp at hsome
  | some q => simp [run_search, hd]

theorem parse_input_none_short (input : List (List Char)) (h : input.length < 4) :
    parse_input input = none := by
  match input, h with
  | [], _ => rfl
  | [a], _ =>
    rw [parse_input]
    cases hd : parse_u64 (trim_chars a) <;> simp [hd]
  | [a, b], _ =>
    rw [parse_input]
    cases hd : parse_u64 (trim_chars a)
    · simp [hd]
    · cases hr : parse_row b <;> simp [hd, hr]
  | [a, b, c], _ =>
    rw [parse_input]
    cases hd : parse_u64 (trim_chars a)
    · simp [hd]
    · cases hr : parse_row b
      · simp [hd, hr]
      · cases hr' : parse_row c <;> simp [hd, hr, hr']

theorem parse_input_none_iff (input : List (List Char)) (hlen : 4 ≤ input.length) :
    parse_input input = none ↔
      parse_u64 (trim_chars (input.getD 0 [])) = none ∨
      parse_row (input.getD 1 []) = none ∨
      parse_row (input.getD 2 []) = none ∨
      parse_row (input.getD 3 []) = none := by
  rw [parse_input, get?_eq_getD input 0 [] (by omega), get?_eq_getD input 1 [] (by omega),
    get?_eq_getD input 2 [] (by omega), get?_eq_getD input 3 [] (by omega)]
  generalize input.getD 0 [] = l0
  generalize input.getD 1 [] = l1
  generalize input.getD 2 [] = l2
  generalize input.getD 3 [] = l3
  cases hd : parse_u64 (trim_chars l0) with
  | none => simp [hd]
  | some d =>
    cases hr0 : parse_row l1 with
    | none => simp [hd, hr0]
    | some row0 =>
      cases hr1 : parse_row l2 with
      | none => simp [hd, hr0, hr1]
      | some row1 =>
        cases hr2 : parse_row l3 with
        | none => simp [hd, hr0, hr1, hr2]
        | some row2 => simp [hd, hr0, hr1, hr2]

/-- C3 (counterexample): an input with a cell value 7, a depth of 64 and a
four-token row is accepted: the program prints a value and exits 0, where
the claim demands a nonzero exit for each of those three conditions. -/
theorem C3_counterexample :
    main_model ["64".data, "7 6 6 6".data, "6 6 6".data, "6 6 6".data]
      = some 766666666 := by decide

/-- C3 (amended): the program exits 0 exactly when the input parses — at
least four lines, the trimmed depth line a u64, and every token of each of
the three row lines a u64 with at least three tokens per row.  Nonzero exits
come only from those parse failures; cell values outside [0, 6], depths
D ≥ 64, extra row tokens and extra lines are all accepted. -/
theorem C3_exit_codes_amended :
    (∀ input, (main_model input).isSome = (parse_input input).isSome) ∧
    (∀ input, input.length < 4 → parse_input input = none) ∧
    (∀ input, 4 ≤ input.length →
      (parse_input input = none ↔
        parse_u64 (trim_chars (input.getD 0 [])) = none ∨
        parse_row (input.getD 1 []) = none ∨
        parse_row (input.getD 2 []) = none ∨
        parse_row (input.getD 3 []) = none)) := by
  refine ⟨?_, parse_input_none_short, parse_input_none_iff⟩
  intro input
  cases hp : parse_input input with
  | none => rw [main_model, hp]; rfl
  | some p => rw [main_model_some_of_parse input p hp]; rfl

theorem C3_exit_codes_amended_witness :
    ((["x".data, "0 0 0".data, "0 0 0".data, "0 0 0".data] : List (List Char)).length ≥ 4) ∧
    (parse_input ["x".data, "0 0 0".data, "0 0 0".data, "0 0 0".data] = none ↔
      parse_u64 (trim_chars (["x".data, "0 0 0".data, "0 0 0".data,
          "0 0 0".data].getD 0 [])) = none ∨
      parse_row (["x".data, "0 0 0".data, "0 0 0".data, "0 0 0".data].getD 1 []) = none ∨
      parse_row (["x".data, "0 0 0".data, "0 0 0".data, "0 0 0".data].getD 2 []) = none ∨
      parse_row (["x".data, "0 0 0".data, "0 0 0".data, "0 0 0".data].getD 3 []) = none) :=
  ⟨by decide, C3_exit_codes_amended.2.2
    ["x".data, "0 0 0".data, "0 0 0".data, "0 0 0".data] (by decide)⟩

